import Mathlib

/-!
Verification of the SEO ranking checker (`ranking-checker.py`).

The file embeds the core `google_search` routine and the surrounding
`__main__` driver as executable Lean functions.  The HTTP layer is
abstracted as an environment `env : String → String → Nat → Nat →
ExecResult` mapping an (api_key, cx) credential pair and the request's
`start` and `num` parameters to the classified outcome of that call.
Every outbound call is recorded in a trace so that claims about call
counts and short-circuiting are observable.
-/

/-- One raw item of the API payload (`data['items']` entries): the code
reads `title`, `link` and `snippet`. -/
structure Item where
  title : String
  link : String
  snippet : String
deriving DecidableEq

/-- An accumulated result entry (`results.append({...})` at line 67):
the raw fields plus the 1-based global position. -/
structure RItem where
  title : String
  link : String
  snippet : String
  position : Nat
deriving DecidableEq

/-- Classification of one API call, following the branches at lines
51-62 of `google_search`: HTTP 429, a raised exception (network error,
non-2xx status, bad JSON), a 200 response without an `items` key, or a
200 response whose `items` list is parsed. -/
inductive ExecResult where
  | success (items : List Item)
  | quotaExceeded
  | transientError (detail : String)
  | noItems
deriving DecidableEq

/-- Whether the call reached the `data['items']` processing loop. -/
def ExecResult.isSuccess : ExecResult → Bool
  | .success _ => true
  | _ => false

/-- Record of one outbound API call: the credential pair used and the
`start`/`num` request parameters, with the classified response. -/
structure Call where
  key : String
  cx : String
  start : Nat
  num : Nat
  result : ExecResult
deriving DecidableEq

/-- The mutable state of `google_search`: the accumulated `results`
list, the position of the `itertools.cycle` cursor over the credential
pairs, and the trace of calls made so far. -/
structure SearchState where
  results : List RItem
  cyclePos : Nat
  calls : List Call
deriving DecidableEq

/-- Outcome of the inner credential loop for one page. -/
inductive PageOutcome where
  | found (pos : Nat) (link : String)
  | ok
  | noSuccess
deriving DecidableEq

/-- Characters allowed in a URL scheme (`scheme_chars` of
`urllib.parse`): ASCII letters, digits, `+`, `-`, `.`. -/
def schemeChar (c : Char) : Bool :=
  c.isAlphanum || c == '+' || c == '-' || c == '.'

/-- Strip a leading `scheme:` from a URL, as `urllib.parse.urlsplit`
does: the text before the first `:` must be nonempty, start with an
ASCII letter and consist of scheme characters. -/
def afterScheme (l : List Char) : List Char :=
  match l.findIdx? (fun c => c == ':') with
  | none => l
  | some i =>
    if 0 < i ∧ (l.take i).all schemeChar ∧ (l.headD ' ').isAlpha then
      l.drop (i + 1)
    else l

/-- The `netloc` component of `urlparse`: present only when the
post-scheme text starts with `//`, and extends to the next `/`, `?`
or `#`. -/
def netlocL (l : List Char) : List Char :=
  match afterScheme l with
  | '/' :: '/' :: rest =>
    rest.takeWhile (fun c => c ≠ '/' ∧ c ≠ '?' ∧ c ≠ '#')
  | _ => []

/-- `urlparse(link).netloc` as a string function. -/
def netloc (url : String) : String := String.mk (netlocL url.data)

/-- Python's `str.lower()` on the character data (the strings involved
here are ASCII, where `Char.toLower` agrees with Python). -/
def lowerL (l : List Char) : List Char := l.map Char.toLower

/-- The guard at line 75:
`target_domain and target_domain.lower() in urlparse(link).netloc.lower()`.
A missing or empty target domain is falsy in Python, so it never
matches; otherwise the lower-cased domain is tested as a substring of
the lower-cased host. -/
def domainHit (td : Option String) (link : String) : Bool :=
  match td with
  | none => false
  | some t =>
    if t.isEmpty then false
    else decide (lowerL t.data <:+: lowerL (netloc link).data)

/-- The `for item in data['items']` loop at lines 64-78: each item is
appended with position `len(results) + 1`; immediately afterwards the
domain test runs and, on a hit, the loop stops and reports that
position and link.  Returns the grown list and the optional match. -/
def appendItems (td : Option String) (res : List RItem) :
    List Item → List RItem × Option (Nat × String)
  | [] => (res, none)
  | it :: rest =>
    let pos := res.length + 1
    let res' := res ++ [⟨it.title, it.link, it.snippet, pos⟩]
    if domainHit td it.link then (res', some (pos, it.link))
    else appendItems td res' rest

/-- The credential pair the cyclic cursor yields at position `p`:
`itertools.cycle(zip(api_keys, cxs))` wraps modulo the pair count. -/
def credAt (creds : List (String × String)) (p : Nat) : String × String :=
  creds.getD (p % creds.length) ("", "")

/-- One call of the Query Executor: pull the next credential pair from
the cyclic cursor (`next(key_cycle)`), issue the request, advance the
cursor and record the call. -/
def attemptCall (env : String → String → Nat → Nat → ExecResult)
    (creds : List (String × String)) (st : SearchState)
    (start num : Nat) : ExecResult × SearchState :=
  let kc := credAt creds st.cyclePos
  let r := env kc.1 kc.2 start num
  (r, ⟨st.results, st.cyclePos + 1,
       st.calls ++ [⟨kc.1, kc.2, start, num, r⟩]⟩)

/-- The inner `for attempt in range(len(api_keys))` loop at lines
44-81, with `fuel` the remaining attempts.  A 429, an exception or a
missing `items` key moves on to the next credential; a parsed `items`
list is folded through `appendItems`, yielding either an immediate
match (`found`) or a successful page (`ok`).  Exhausting all attempts
yields `noSuccess`. -/
def tryCreds (env : String → String → Nat → Nat → ExecResult)
    (creds : List (String × String)) (td : Option String)
    (start num : Nat) : Nat → SearchState → SearchState × PageOutcome
  | 0, st => (st, .noSuccess)
  | fuel + 1, st =>
    match attemptCall env creds st start num with
    | (.success items, st1) =>
      match appendItems td st1.results items with
      | (res', some pl) => (⟨res', st1.cyclePos, st1.calls⟩, .found pl.1 pl.2)
      | (res', none) => (⟨res', st1.cyclePos, st1.calls⟩, .ok)
    | (.quotaExceeded, st1) => tryCreds env creds td start num fuel st1
    | (.transientError _, st1) => tryCreds env creds td start num fuel st1
    | (.noItems, st1) => tryCreds env creds td start num fuel st1

/-- The outer `for start in range(1, num_results + 1, 10)` loop:
`num` is `min(10, num_results - len(results))` computed at the top of
the page; a found match returns at once; a page with no successful
attempt breaks (`"Todas las API Keys fallaron."`); after a successful
page the loop breaks when `len(results) >= num_results`. -/
def pagesLoop (env : String → String → Nat → Nat → ExecResult)
    (creds : List (String × String)) (attempts : Nat) (td : Option String)
    (numResults : Nat) :
    List Nat → SearchState → SearchState × Option (Nat × String)
  | [], st => (st, none)
  | start :: rest, st =>
    let num := min 10 (numResults - st.results.length)
    match tryCreds env creds td start num attempts st with
    | (st', .found pos link) => (st', some (pos, link))
    | (st', .noSuccess) => (st', none)
    | (st', .ok) =>
      if numResults ≤ st'.results.length then (st', none)
      else pagesLoop env creds attempts td numResults rest st'

/-- The page offsets `range(1, num_results + 1, 10)`:
`⌈numResults/10⌉` values starting at 1 with step 10. -/
def pageStarts (numResults : Nat) : List Nat :=
  List.range' 1 ((numResults + 9) / 10) 10

/-- `google_search(query, api_keys, cxs, num_results, ..., target_domain)`:
runs the page loop from the empty state with the cyclic cursor over
`zip(api_keys, cxs)` and `len(api_keys)` attempts per page.  Returns
the final state (results and call trace) and the optional
(position, link) match. -/
def google_search (env : String → String → Nat → Nat → ExecResult)
    (api_keys cxs : List String) (numResults : Nat) (td : Option String) :
    SearchState × Option (Nat × String) :=
  pagesLoop env (api_keys.zip cxs) api_keys.length td numResults
    (pageStarts numResults) ⟨[], 0, []⟩

/-- One output line, `f"{fecha_hoy}|{r['link']}|{r['position']}"`. -/
def lineOf (date : String) (r : RItem) : String :=
  date ++ "|" ++ r.link ++ "|" ++ toString r.position

/-- The block of lines written for one search outcome (lines 152-154):
one line per accumulated result item, in order. -/
def outcomeLines (date : String) (rs : List RItem) : List String :=
  rs.map (lineOf date)

/-- `keyword.replace(' ', '_')`: a single-character replacement is a
character map. -/
def underscored (s : String) : String :=
  String.mk (s.data.map (fun c => if c == ' ' then '_' else c))

/-- The deterministic output file name,
`f"seo_results_{keyword.replace(' ', '_')}_{country}.txt"`. -/
def outputFile (keyword country : String) : String :=
  "seo_results_" ++ underscored keyword ++ "_" ++ country ++ ".txt"

/-- The result sink: `open(output_file, "a")` followed by one `write`
per item appends the outcome's lines after the prior file content. -/
def sinkAppend (prior : List String) (date : String) (rs : List RItem) :
    List String :=
  prior ++ outcomeLines date rs

/-- Numbering helper describing what the item loop appends: the items
of one response, turned into result entries with positions
`base + 1, base + 2, …`. -/
def withPos (base : Nat) : List Item → List RItem
  | [] => []
  | it :: rest => ⟨it.title, it.link, it.snippet, base + 1⟩ :: withPos (base + 1) rest

/-- The position invariant: the `i`-th entry (0-based) of the
accumulated list carries position `i + 1`. -/
def seqPos (l : List RItem) : Prop :=
  ∀ i (h : i < l.length), (l.get ⟨i, h⟩).position = i + 1

/-- No accumulated entry matches the target domain. -/
def noMatch (td : Option String) (l : List RItem) : Prop :=
  ∀ r ∈ l, domainHit td r.link = false

/-- Observable outcome of one run of the `__main__` block. -/
structure MainOut where
  exitCode : Nat
  configErrorPrinted : Bool
  verdictPrinted : Bool
  ioErrorRaised : Bool
  matched : Option (Nat × String)
  calls : List Call
  fileLines : List String
deriving DecidableEq

/-- The `__main__` driver (lines 128-156): if the key and cx lists
have different lengths, print the configuration error and
`sys.exit(1)` before any search; otherwise run `google_search`, print
the verdict (match or not-found), then append the result lines.
`fileOk` models whether `open(output_file, "a")` succeeds; when it
fails the raised `OSError` is uncaught, so nothing is written, the
traceback is printed and the interpreter exits with code 1 — but the
verdict was already printed. -/
def mainRun (env : String → String → Nat → Nat → ExecResult)
    (keys cxs : List String) (numResults : Nat) (date : String)
    (domain : String) (fileOk : Bool) : MainOut :=
  if keys.length ≠ cxs.length then
    ⟨1, true, false, false, none, [], []⟩
  else
    let r := google_search env keys cxs numResults (some domain)
    if fileOk then
      ⟨0, false, true, false, r.2, r.1.calls, outcomeLines date r.1.results⟩
    else
      ⟨1, false, true, true, r.2, r.1.calls, []⟩

/-! Concrete data for the end-to-end scenario of §8: keyword
`"free image hosting"`, target `imgur.com`, `--results 20`, two
credentials, the first always over quota, the second answering page 1
with a response that carries `imgur.com` at item index 3. -/

/-- The page-1 items of the scenario's single successful response:
the match sits at index 3 and a fifth item follows it. -/
def scenarioItems : List Item :=
  [⟨"PostImages", "https://postimages.org/", "free image hosting"⟩,
   ⟨"ImgBB", "https://imgbb.com/", "upload and share"⟩,
   ⟨"Flickr", "https://www.flickr.com/", "photo sharing"⟩,
   ⟨"Imgur", "https://imgur.com/upload", "image hosting"⟩,
   ⟨"Unsplash", "https://unsplash.com/", "free images"⟩]

/-- The scenario's network: credential `KEY1` answers HTTP 429 to every
call; any other credential answers page 1 with `scenarioItems` and
later pages with an item-less response. -/
def envScenario : String → String → Nat → Nat → ExecResult := fun k _ start _ =>
  if k = "KEY1" then .quotaExceeded
  else if start = 1 then .success scenarioItems
  else .noItems

/-- A network where every call fails over quota, for the
all-credentials-fail scenarios. -/
def envAllQuota : String → String → Nat → Nat → ExecResult :=
  fun _ _ _ _ => .quotaExceeded

/-- A non-matching item generator: every call is answered with exactly
the requested number of copies of an item whose host does not contain
the target domain. -/
def plainItems : String → String → Nat → Nat → List Item :=
  fun _ _ _ m => List.replicate m ⟨"Other", "https://plain.example.org/", "x"⟩

/-- A network that always succeeds with exactly the requested number of
non-matching items. -/
def envFullPages : String → String → Nat → Nat → ExecResult :=
  fun k c s m => .success (plainItems k c s m)

/-! ### Helper lemmas about the item loop -/

theorem appendItems_nil (td : Option String) (res : List RItem) :
    appendItems td res [] = (res, none) := rfl

theorem appendItems_cons_nomatch (td : Option String) (res : List RItem)
    (it : Item) (rest : List Item) (hit : domainHit td it.link = false) :
    appendItems td res (it :: rest) =
      appendItems td (res ++ [⟨it.title, it.link, it.snippet, res.length + 1⟩]) rest := by
  simp [appendItems, hit]

theorem appendItems_cons_match (td : Option String) (res : List RItem)
    (it : Item) (rest : List Item) (hit : domainHit td it.link = true) :
    appendItems td res (it :: rest) =
      (res ++ [⟨it.title, it.link, it.snippet, res.length + 1⟩],
       some (res.length + 1, it.link)) := by
  simp [appendItems, hit]

theorem withPos_length (base : Nat) (l : List Item) :
    (withPos base l).length = l.length := by
  induction l generalizing base with
  | nil => rfl
  | cons it rest ih => simp [withPos, ih]

theorem withPos_concat (base : Nat) (l : List Item) (m : Item) :
    withPos base (l ++ [m]) =
      withPos base l ++ [⟨m.title, m.link, m.snippet, base + l.length + 1⟩] := by
  induction l generalizing base with
  | nil => simp [withPos]
  | cons it rest ih =>
    rw [List.cons_append, withPos, ih (base + 1), withPos]
    simp [Nat.add_assoc, Nat.add_comm, Nat.add_left_comm]

theorem withPos_get_position (base : Nat) (l : List Item) (i : Nat)
    (h : i < (withPos base l).length) :
    ((withPos base l).get ⟨i, h⟩).position = base + i + 1 := by
  induction l generalizing base i with
  | nil => simp [withPos] at h
  | cons it rest ih =>
    cases i with
    | zero => rfl
    | succ j =>
      have h' : j < (withPos (base + 1) rest).length := by
        simpa [withPos] using h
      have := ih (base + 1) j h'
      simpa [withPos, Nat.add_assoc, Nat.add_comm, Nat.add_left_comm] using this

theorem withPos_mem_link (base : Nat) (l : List Item) (r : RItem)
    (h : r ∈ withPos base l) : ∃ it ∈ l, r.link = it.link := by
  induction l generalizing base with
  | nil => simp [withPos] at h
  | cons it rest ih =>
    simp only [withPos, List.mem_cons] at h
    rcases h with h | h
    · exact ⟨it, by simp, by simp [h]⟩
    · obtain ⟨it', hmem, hlink⟩ := ih (base + 1) h
      exact ⟨it', by simp [hmem], hlink⟩

theorem appendItems_nomatch (td : Option String) (res : List RItem)
    (items : List Item) (h : ∀ it ∈ items, domainHit td it.link = false) :
    appendItems td res items = (res ++ withPos res.length items, none) := by
  induction items generalizing res with
  | nil => simp [appendItems_nil, withPos]
  | cons it rest ih =>
    have hit : domainHit td it.link = false := h it (by simp)
    rw [appendItems_cons_nomatch td res it rest hit]
    rw [ih (res ++ [(⟨it.title, it.link, it.snippet, res.length + 1⟩ : RItem)])
        (fun a ha => h a (List.mem_cons_of_mem _ ha))]
    simp [withPos]

theorem appendItems_match (td : Option String) (res : List RItem)
    (pre : List Item) (m : Item) (post : List Item)
    (hpre : ∀ it ∈ pre, domainHit td it.link = false)
    (hm : domainHit td m.link = true) :
    appendItems td res (pre ++ m :: post) =
      (res ++ withPos res.length (pre ++ [m]),
       some (res.length + pre.length + 1, m.link)) := by
  induction pre generalizing res with
  | nil =>
    rw [List.nil_append, appendItems_cons_match td res m post hm]
    simp [withPos]
  | cons it pre' ih =>
    have hit : domainHit td it.link = false := hpre it (by simp)
    rw [List.cons_append, appendItems_cons_nomatch td res it _ hit]
    rw [ih (res ++ [(⟨it.title, it.link, it.snippet, res.length + 1⟩ : RItem)])
        (fun a ha => hpre a (List.mem_cons_of_mem _ ha))]
    simp [withPos]
    omega

theorem appendItems_none_inv (td : Option String) (res : List RItem)
    (items : List Item) (res' : List RItem)
    (h : appendItems td res items = (res', none)) :
    res' = res ++ withPos res.length items ∧
      ∀ it ∈ items, domainHit td it.link = false := by
  induction items generalizing res with
  | nil =>
    rw [appendItems_nil] at h
    obtain ⟨rfl, -⟩ := Prod.mk.injEq .. ▸ h
    simp [withPos]
  | cons it rest ih =>
    by_cases hit : domainHit td it.link
    · rw [appendItems_cons_match td res it rest hit] at h
      simp at h
    · rw [appendItems_cons_nomatch td res it rest (by simpa using hit)] at h
      obtain ⟨h1, h2⟩ := ih (res ++ [⟨it.title, it.link, it.snippet, res.length + 1⟩]) h
      refine ⟨?_, ?_⟩
      · simp [h1, withPos]
      · intro a ha
        rcases List.mem_cons.mp ha with rfl | ha'
        · simpa using hit
        · exact h2 a ha'

theorem appendItems_some_inv (td : Option String) (res : List RItem)
    (items : List Item) (res' : List RItem) (pos : Nat) (link : String)
    (h : appendItems td res items = (res', some (pos, link))) :
    ∃ pre m post, items = pre ++ m :: post ∧
      (∀ it ∈ pre, domainHit td it.link = false) ∧
      domainHit td m.link = true ∧ link = m.link ∧
      res' = res ++ withPos res.length (pre ++ [m]) ∧
      pos = res.length + pre.length + 1 := by
  induction items generalizing res with
  | nil =>
    rw [appendItems_nil] at h
    simp at h
  | cons it rest ih =>
    by_cases hit : domainHit td it.link
    · rw [appendItems_cons_match td res it rest hit] at h
      simp only [Prod.mk.injEq, Option.some.injEq] at h
      obtain ⟨hres', hpos, hlink⟩ := h
      subst hres'
      subst hpos
      subst hlink
      exact ⟨[], it, rest, by simp, by simp, hit, rfl, by simp [withPos], by simp⟩
    · rw [appendItems_cons_nomatch td res it rest (by simpa using hit)] at h
      obtain ⟨pre', m, post, hdec, hpre, hm, hlink, hres, hpos⟩ :=
        ih (res ++ [⟨it.title, it.link, it.snippet, res.length + 1⟩]) h
      refine ⟨it :: pre', m, post, by simp [hdec], ?_, hm, hlink, ?_, ?_⟩
      · intro a ha
        rcases List.mem_cons.mp ha with rfl | ha'
        · simpa using hit
        · exact hpre a ha'
      · simp [hres, withPos]
      · simp at hpos
        simp [hpos]
        omega

theorem seqPos_append_withPos (res : List RItem) (l : List Item)
    (h : seqPos res) : seqPos (res ++ withPos res.length l) := by
  intro i hi
  by_cases hlt : i < res.length
  · have hres := h i hlt
    simpa [List.get_eq_getElem, List.getElem_append_left hlt]
      using hres
  · push_neg at hlt
    have hi' : i - res.length < (withPos res.length l).length := by
      rw [List.length_append] at hi
      omega
    have hw := withPos_get_position res.length l (i - res.length) hi'
    simp only [List.get_eq_getElem] at hw ⊢
    rw [List.getElem_append_right hlt]
    rw [hw]
    omega

theorem noMatch_append_withPos (td : Option String) (res : List RItem)
    (l : List Item) (h : noMatch td res)
    (hl : ∀ it ∈ l, domainHit td it.link = false) :
    noMatch td (res ++ withPos res.length l) := by
  intro r hr
  rcases List.mem_append.mp hr with hr' | hr'
  · exact h r hr'
  · obtain ⟨it, hmem, hlink⟩ := withPos_mem_link res.length l r hr'
    rw [hlink]
    exact hl it hmem

theorem withPos_matched_only_last (td : Option String) (base : Nat)
    (pre : List Item) (m : Item)
    (hpre : ∀ it ∈ pre, domainHit td it.link = false)
    (hm : domainHit td m.link = true) :
    ∀ r ∈ withPos base (pre ++ [m]), domainHit td r.link = true →
      r.position = base + pre.length + 1 ∧ r.link = m.link := by
  induction pre generalizing base with
  | nil =>
    intro r hr hmatch
    simp only [List.nil_append, withPos, List.mem_singleton] at hr
    subst hr
    simp
  | cons it pre' ih =>
    intro r hr hmatch
    simp only [List.cons_append, withPos, List.mem_cons] at hr
    rcases hr with rfl | hr'
    · have : domainHit td it.link = false := hpre it (by simp)
      simp only [this] at hmatch
      cases hmatch
    · have := ih (base + 1) (fun a ha => hpre a (List.mem_cons_of_mem _ ha)) r hr' hmatch
      refine ⟨?_, this.2⟩
      rw [this.1]
      simp
      omega

/-! ### Helper lemmas about the credential loop -/

theorem tryCreds_zero (env : String → String → Nat → Nat → ExecResult)
    (creds : List (String × String)) (td : Option String)
    (start num : Nat) (st : SearchState) :
    tryCreds env creds td start num 0 st = (st, .noSuccess) := rfl

theorem tryCreds_succ_found (env : String → String → Nat → Nat → ExecResult)
    (creds : List (String × String)) (td : Option String)
    (start num fuel : Nat) (st : SearchState) (items : List Item)
    (res' : List RItem) (pos : Nat) (link : String)
    (hr : env (credAt creds st.cyclePos).1 (credAt creds st.cyclePos).2
            start num = .success items)
    (happ : appendItems td st.results items = (res', some (pos, link))) :
    tryCreds env creds td start num (fuel + 1) st =
      (⟨res', st.cyclePos + 1,
        st.calls ++ [⟨(credAt creds st.cyclePos).1, (credAt creds st.cyclePos).2,
                      start, num, .success items⟩]⟩, .found pos link) := by
  simp [tryCreds, attemptCall, hr, happ]

theorem tryCreds_succ_ok (env : String → String → Nat → Nat → ExecResult)
    (creds : List (String × String)) (td : Option String)
    (start num fuel : Nat) (st : SearchState) (items : List Item)
    (res' : List RItem)
    (hr : env (credAt creds st.cyclePos).1 (credAt creds st.cyclePos).2
            start num = .success items)
    (happ : appendItems td st.results items = (res', none)) :
    tryCreds env creds td start num (fuel + 1) st =
      (⟨res', st.cyclePos + 1,
        st.calls ++ [⟨(credAt creds st.cyclePos).1, (credAt creds st.cyclePos).2,
                      start, num, .success items⟩]⟩, .ok) := by
  simp [tryCreds, attemptCall, hr, happ]

theorem tryCreds_succ_fail (env : String → String → Nat → Nat → ExecResult)
    (creds : List (String × String)) (td : Option String)
    (start num fuel : Nat) (st : SearchState)
    (hs : (env (credAt creds st.cyclePos).1 (credAt creds st.cyclePos).2
            start num).isSuccess = false) :
    tryCreds env creds td start num (fuel + 1) st =
      tryCreds env creds td start num fuel
        ⟨st.results, st.cyclePos + 1,
         st.calls ++ [⟨(credAt creds st.cyclePos).1, (credAt creds st.cyclePos).2,
                       start, num,
                       env (credAt creds st.cyclePos).1 (credAt creds st.cyclePos).2
                         start num⟩]⟩ := by
  cases hr : env (credAt creds st.cyclePos).1 (credAt creds st.cyclePos).2 start num with
  | success items => rw [hr] at hs; simp [ExecResult.isSuccess] at hs
  | quotaExceeded => simp [tryCreds, attemptCall, hr]
  | transientError d => simp [tryCreds, attemptCall, hr]
  | noItems => simp [tryCreds, attemptCall, hr]

theorem tryCreds_calls (env : String → String → Nat → Nat → ExecResult)
    (creds : List (String × String)) (td : Option String)
    (start num : Nat) :
    ∀ fuel st, ∃ cs,
      (tryCreds env creds td start num fuel st).1.calls = st.calls ++ cs ∧
      cs.length ≤ fuel ∧ ∀ x ∈ cs, x.start = start ∧ x.num = num := by
  intro fuel
  induction fuel with
  | zero =>
    intro st
    exact ⟨[], by simp [tryCreds_zero], by simp, by simp⟩
  | succ fuel ih =>
    intro st
    by_cases hs : (env (credAt creds st.cyclePos).1 (credAt creds st.cyclePos).2
        start num).isSuccess = true
    · obtain ⟨items, hr⟩ : ∃ items,
          env (credAt creds st.cyclePos).1 (credAt creds st.cyclePos).2 start num
            = .success items := by
        cases hr : env (credAt creds st.cyclePos).1 (credAt creds st.cyclePos).2
            start num with
        | success items => exact ⟨items, rfl⟩
        | quotaExceeded => rw [hr] at hs; simp [ExecResult.isSuccess] at hs
        | transientError d => rw [hr] at hs; simp [ExecResult.isSuccess] at hs
        | noItems => rw [hr] at hs; simp [ExecResult.isSuccess] at hs
      rcases happ : appendItems td st.results items with ⟨res', opt⟩
      cases opt with
      | some pl =>
        rcases pl with ⟨pos, link⟩
        rw [tryCreds_succ_found env creds td start num fuel st items res' pos link hr happ]
        exact ⟨[⟨(credAt creds st.cyclePos).1, (credAt creds st.cyclePos).2,
                 start, num, .success items⟩], by simp, by simp, by simp⟩
      | none =>
        rw [tryCreds_succ_ok env creds td start num fuel st items res' hr happ]
        exact ⟨[⟨(credAt creds st.cyclePos).1, (credAt creds st.cyclePos).2,
                 start, num, .success items⟩], by simp, by simp, by simp⟩
    · rw [tryCreds_succ_fail env creds td start num fuel st (by simpa using hs)]
      obtain ⟨cs, hcalls, hlen, hprop⟩ := ih
        ⟨st.results, st.cyclePos + 1,
         st.calls ++ [⟨(credAt creds st.cyclePos).1, (credAt creds st.cyclePos).2,
                       start, num,
                       env (credAt creds st.cyclePos).1 (credAt creds st.cyclePos).2
                         start num⟩]⟩
      refine ⟨⟨(credAt creds st.cyclePos).1, (credAt creds st.cyclePos).2,
               start, num,
               env (credAt creds st.cyclePos).1 (credAt creds st.cyclePos).2
                 start num⟩ :: cs, ?_, by simpa using hlen, ?_⟩
      · simpa using hcalls
      · intro x hx
        rcases List.mem_cons.mp hx with rfl | hx'
        · exact ⟨rfl, rfl⟩
        · exact hprop x hx'

theorem tryCreds_found_inv (env : String → String → Nat → Nat → ExecResult)
    (creds : List (String × String)) (td : Option String)
    (start num : Nat) :
    ∀ fuel st st' pos link,
      tryCreds env creds td start num fuel st = (st', .found pos link) →
      ∃ items cs c,
        appendItems td st.results items = (st'.results, some (pos, link)) ∧
        st'.calls = st.calls ++ cs ++ [c] ∧
        c.result = .success items ∧ c.start = start ∧ c.num = num ∧
        ∀ x ∈ cs, x.result.isSuccess = false := by
  intro fuel
  induction fuel with
  | zero =>
    intro st st' pos link h
    rw [tryCreds_zero] at h
    simp at h
  | succ fuel ih =>
    intro st st' pos link h
    by_cases hs : (env (credAt creds st.cyclePos).1 (credAt creds st.cyclePos).2
        start num).isSuccess = true
    · obtain ⟨items, hr⟩ : ∃ items,
          env (credAt creds st.cyclePos).1 (credAt creds st.cyclePos).2 start num
            = .success items := by
        cases hr : env (credAt creds st.cyclePos).1 (credAt creds st.cyclePos).2
            start num with
        | success items => exact ⟨items, rfl⟩
        | quotaExceeded => rw [hr] at hs; simp [ExecResult.isSuccess] at hs
        | transientError d => rw [hr] at hs; simp [ExecResult.isSuccess] at hs
        | noItems => rw [hr] at hs; simp [ExecResult.isSuccess] at hs
      rcases happ : appendItems td st.results items with ⟨res', opt⟩
      cases opt with
      | some pl =>
        rcases pl with ⟨pos', link'⟩
        rw [tryCreds_succ_found env creds td start num fuel st items res' pos' link' hr happ] at h
        simp only [Prod.mk.injEq, PageOutcome.found.injEq] at h
        obtain ⟨hst, hpos, hlink⟩ := h
        subst hst
        subst hpos
        subst hlink
        refine ⟨items, [], ⟨(credAt creds st.cyclePos).1, (credAt creds st.cyclePos).2,
                 start, num, .success items⟩, by simpa using happ, by simp, rfl, rfl, rfl,
                 by simp⟩
      | none =>
        rw [tryCreds_succ_ok env creds td start num fuel st items res' hr happ] at h
        simp at h
    · rw [tryCreds_succ_fail env creds td start num fuel st (by simpa using hs)] at h
      obtain ⟨items, cs, c, happ, hcalls, hres, hstart, hnum, hfailed⟩ := ih _ _ _ _ h
      refine ⟨items, ⟨(credAt creds st.cyclePos).1, (credAt creds st.cyclePos).2,
               start, num,
               env (credAt creds st.cyclePos).1 (credAt creds st.cyclePos).2
                 start num⟩ :: cs, c, by simpa using happ, ?_, hres, hstart, hnum, ?_⟩
      · simpa using hcalls
      · intro x hx
        rcases List.mem_cons.mp hx with rfl | hx'
        · simpa using hs
        · exact hfailed x hx'

theorem tryCreds_ok_inv (env : String → String → Nat → Nat → ExecResult)
    (creds : List (String × String)) (td : Option String)
    (start num : Nat) :
    ∀ fuel st st',
      tryCreds env creds td start num fuel st = (st', .ok) →
      ∃ items cs c,
        appendItems td st.results items = (st'.results, none) ∧
        st'.calls = st.calls ++ cs ++ [c] ∧
        c.result = .success items ∧
        ∀ x ∈ cs, x.result.isSuccess = false := by
  intro fuel
  induction fuel with
  | zero =>
    intro st st' h
    rw [tryCreds_zero] at h
    simp at h
  | succ fuel ih =>
    intro st st' h
    by_cases hs : (env (credAt creds st.cyclePos).1 (credAt creds st.cyclePos).2
        start num).isSuccess = true
    · obtain ⟨items, hr⟩ : ∃ items,
          env (credAt creds st.cyclePos).1 (credAt creds st.cyclePos).2 start num
            = .success items := by
        cases hr : env (credAt creds st.cyclePos).1 (credAt creds st.cyclePos).2
            start num with
        | success items => exact ⟨items, rfl⟩
        | quotaExceeded => rw [hr] at hs; simp [ExecResult.isSuccess] at hs
        | transientError d => rw [hr] at hs; simp [ExecResult.isSuccess] at hs
        | noItems => rw [hr] at hs; simp [ExecResult.isSuccess] at hs
      rcases happ : appendItems td st.results items with ⟨res', opt⟩
      cases opt with
      | some pl =>
        rcases pl with ⟨pos', link'⟩
        rw [tryCreds_succ_found env creds td start num fuel st items res' pos' link' hr happ] at h
        simp at h
      | none =>
        rw [tryCreds_succ_ok env creds td start num fuel st items res' hr happ] at h
        simp only [Prod.mk.injEq] at h
        obtain ⟨hst, -⟩ := h
        subst hst
        exact ⟨items, [], ⟨(credAt creds st.cyclePos).1, (credAt creds st.cyclePos).2,
                 start, num, .success items⟩, by simpa using happ, by simp, rfl, by simp⟩
    · rw [tryCreds_succ_fail env creds td start num fuel st (by simpa using hs)] at h
      obtain ⟨items, cs, c, happ, hcalls, hres, hfailed⟩ := ih _ _ h
      refine ⟨items, ⟨(credAt creds st.cyclePos).1, (credAt creds st.cyclePos).2,
               start, num,
               env (credAt creds st.cyclePos).1 (credAt creds st.cyclePos).2
                 start num⟩ :: cs, c, by simpa using happ, ?_, hres, ?_⟩
      · simpa using hcalls
      · intro x hx
        rcases List.mem_cons.mp hx with rfl | hx'
        · simpa using hs
        · exact hfailed x hx'

theorem tryCreds_noSuccess_inv (env : String → String → Nat → Nat → ExecResult)
    (creds : List (String × String)) (td : Option String)
    (start num : Nat) :
    ∀ fuel st st',
      tryCreds env creds td start num fuel st = (st', .noSuccess) →
      st'.results = st.results ∧
      ∃ cs, st'.calls = st.calls ++ cs ∧ cs.length = fuel ∧
        ∀ x ∈ cs, x.result.isSuccess = false ∧ x.start = start := by
  intro fuel
  induction fuel with
  | zero =>
    intro st st' h
    rw [tryCreds_zero] at h
    simp only [Prod.mk.injEq] at h
    obtain ⟨hst, -⟩ := h
    subst hst
    exact ⟨rfl, [], by simp, rfl, by simp⟩
  | succ fuel ih =>
    intro st st' h
    by_cases hs : (env (credAt creds st.cyclePos).1 (credAt creds st.cyclePos).2
        start num).isSuccess = true
    · obtain ⟨items, hr⟩ : ∃ items,
          env (credAt creds st.cyclePos).1 (credAt creds st.cyclePos).2 start num
            = .success items := by
        cases hr : env (credAt creds st.cyclePos).1 (credAt creds st.cyclePos).2
            start num with
        | success items => exact ⟨items, rfl⟩
        | quotaExceeded => rw [hr] at hs; simp [ExecResult.isSuccess] at hs
        | transientError d => rw [hr] at hs; simp [ExecResult.isSuccess] at hs
        | noItems => rw [hr] at hs; simp [ExecResult.isSuccess] at hs
      rcases happ : appendItems td st.results items with ⟨res', opt⟩
      cases opt with
      | some pl =>
        rcases pl with ⟨pos', link'⟩
        rw [tryCreds_succ_found env creds td start num fuel st items res' pos' link' hr happ] at h
        simp at h
      | none =>
        rw [tryCreds_succ_ok env creds td start num fuel st items res' hr happ] at h
        simp at h
    · rw [tryCreds_succ_fail env creds td start num fuel st (by simpa using hs)] at h
      obtain ⟨hres, cs, hcalls, hlen, hprop⟩ := ih _ _ h
      refine ⟨by simpa using hres,
              ⟨(credAt creds st.cyclePos).1, (credAt creds st.cyclePos).2,
               start, num,
               env (credAt creds st.cyclePos).1 (credAt creds st.cyclePos).2
                 start num⟩ :: cs, ?_, by simpa using hlen, ?_⟩
      · simpa using hcalls
      · intro x hx
        rcases List.mem_cons.mp hx with rfl | hx'
        · exact ⟨by simpa using hs, rfl⟩
        · exact hprop x hx'

theorem tryCreds_allfail (env : String → String → Nat → Nat → ExecResult)
    (creds : List (String × String)) (td : Option String)
    (start num : Nat)
    (hfail : ∀ k c, (env k c start num).isSuccess = false) :
    ∀ fuel st, (tryCreds env creds td start num fuel st).2 = .noSuccess := by
  intro fuel
  induction fuel with
  | zero => intro st; rw [tryCreds_zero]
  | succ fuel ih =>
    intro st
    rw [tryCreds_succ_fail env creds td start num fuel st (hfail _ _)]
    exact ih _

/-! ### Helper lemmas about the page loop -/

theorem pagesLoop_nil (env : String → String → Nat → Nat → ExecResult)
    (creds : List (String × String)) (attempts : Nat) (td : Option String)
    (numResults : Nat) (st : SearchState) :
    pagesLoop env creds attempts td numResults [] st = (st, none) := rfl

theorem pagesLoop_cons_found (env : String → String → Nat → Nat → ExecResult)
    (creds : List (String × String)) (attempts : Nat) (td : Option String)
    (numResults start : Nat) (rest : List Nat) (st st₁ : SearchState)
    (pos : Nat) (link : String)
    (htc : tryCreds env creds td start (min 10 (numResults - st.results.length))
             attempts st = (st₁, .found pos link)) :
    pagesLoop env creds attempts td numResults (start :: rest) st =
      (st₁, some (pos, link)) := by
  simp [pagesLoop, htc]

theorem pagesLoop_cons_noSuccess (env : String → String → Nat → Nat → ExecResult)
    (creds : List (String × String)) (attempts : Nat) (td : Option String)
    (numResults start : Nat) (rest : List Nat) (st st₁ : SearchState)
    (htc : tryCreds env creds td start (min 10 (numResults - st.results.length))
             attempts st = (st₁, .noSuccess)) :
    pagesLoop env creds attempts td numResults (start :: rest) st = (st₁, none) := by
  simp [pagesLoop, htc]

theorem pagesLoop_cons_ok (env : String → String → Nat → Nat → ExecResult)
    (creds : List (String × String)) (attempts : Nat) (td : Option String)
    (numResults start : Nat) (rest : List Nat) (st st₁ : SearchState)
    (htc : tryCreds env creds td start (min 10 (numResults - st.results.length))
             attempts st = (st₁, .ok)) :
    pagesLoop env creds attempts td numResults (start :: rest) st =
      if numResults ≤ st₁.results.length then (st₁, none)
      else pagesLoop env creds attempts td numResults rest st₁ := by
  simp [pagesLoop, htc]

theorem pagesLoop_seqPos (env : String → String → Nat → Nat → ExecResult)
    (creds : List (String × String)) (attempts : Nat) (td : Option String)
    (numResults : Nat) :
    ∀ starts st, seqPos st.results →
      seqPos (pagesLoop env creds attempts td numResults starts st).1.results := by
  intro starts
  induction starts with
  | nil => intro st hsp; rw [pagesLoop_nil]; exact hsp
  | cons start rest ih =>
    intro st hsp
    rcases htc : tryCreds env creds td start
        (min 10 (numResults - st.results.length)) attempts st with ⟨st₁, out⟩
    cases out with
    | found pos link =>
      rw [pagesLoop_cons_found env creds attempts td numResults start rest st st₁ pos link htc]
      obtain ⟨items, cs, c, happ, -, -, -, -, -⟩ :=
        tryCreds_found_inv env creds td start _ _ st st₁ pos link htc
      obtain ⟨pre, m, post, -, -, -, -, hres, -⟩ :=
        appendItems_some_inv td st.results items st₁.results pos link happ
      rw [hres]
      exact seqPos_append_withPos st.results (pre ++ [m]) hsp
    | ok =>
      rw [pagesLoop_cons_ok env creds attempts td numResults start rest st st₁ htc]
      obtain ⟨items, cs, c, happ, -, -, -⟩ :=
        tryCreds_ok_inv env creds td start _ _ st st₁ htc
      obtain ⟨hres, -⟩ :=
        appendItems_none_inv td st.results items st₁.results happ
      have hsp₁ : seqPos st₁.results := by
        rw [hres]
        exact seqPos_append_withPos st.results items hsp
      by_cases hle : numResults ≤ st₁.results.length
      · rw [if_pos hle]; exact hsp₁
      · rw [if_neg hle]; exact ih st₁ hsp₁
    | noSuccess =>
      rw [pagesLoop_cons_noSuccess env creds attempts td numResults start rest st st₁ htc]
      obtain ⟨hres, -⟩ :=
        tryCreds_noSuccess_inv env creds td start _ _ st st₁ htc
      rw [hres]
      exact hsp

theorem pagesLoop_some_inv (env : String → String → Nat → Nat → ExecResult)
    (creds : List (String × String)) (attempts : Nat) (td : Option String)
    (numResults : Nat) :
    ∀ starts st st' pos link,
      pagesLoop env creds attempts td numResults starts st = (st', some (pos, link)) →
      noMatch td st.results → seqPos st.results →
      pos = st'.results.length ∧
      (∃ r, st'.results.getLast? = some r ∧ r.link = link ∧ r.position = pos) ∧
      domainHit td link = true ∧
      (∀ r ∈ st'.results, domainHit td r.link = true →
        r.position = pos ∧ r.link = link) ∧
      seqPos st'.results ∧
      (∃ c, st'.calls.getLast? = some c ∧ c.result.isSuccess = true) := by
  intro starts
  induction starts with
  | nil =>
    intro st st' pos link h hnm hsp
    rw [pagesLoop_nil] at h
    simp at h
  | cons start rest ih =>
    intro st st' pos link h hnm hsp
    rcases htc : tryCreds env creds td start
        (min 10 (numResults - st.results.length)) attempts st with ⟨st₁, out⟩
    cases out with
    | found pos' link' =>
      rw [pagesLoop_cons_found env creds attempts td numResults start rest st st₁
          pos' link' htc] at h
      simp only [Prod.mk.injEq, Option.some.injEq] at h
      obtain ⟨hst, hpos, hlink⟩ := h
      subst hst
      subst hpos
      subst hlink
      obtain ⟨items, cs, c, happ, hcalls, hcres, -, -, -⟩ :=
        tryCreds_found_inv env creds td start _ _ st st₁ pos' link' htc
      obtain ⟨pre, m, post, -, hpre, hm, hlink, hres, hpos⟩ :=
        appendItems_some_inv td st.results items st₁.results pos' link' happ
      have hlen : st₁.results.length = st.results.length + pre.length + 1 := by
        rw [hres, List.length_append, withPos_length, List.length_append]
        simp
        omega
      refine ⟨by omega, ?_, ?_, ?_, ?_, ?_⟩
      · refine ⟨⟨m.title, m.link, m.snippet, st.results.length + pre.length + 1⟩, ?_, ?_, ?_⟩
        · rw [hres, withPos_concat, ← List.append_assoc]
          exact List.getLast?_concat _
        · simp [hlink]
        · simp [hpos]
      · rw [hlink]; exact hm
      · intro r hr hhit
        rw [hres] at hr
        rcases List.mem_append.mp hr with hr' | hr'
        · rw [hnm r hr'] at hhit
          cases hhit
        · have := withPos_matched_only_last td st.results.length pre m hpre hm r hr' hhit
          exact ⟨by omega, by rw [this.2, ← hlink]⟩
      · rw [hres]
        exact seqPos_append_withPos st.results (pre ++ [m]) hsp
      · refine ⟨c, ?_, by simp [hcres, ExecResult.isSuccess]⟩
        rw [hcalls]
        exact List.getLast?_concat _
    | ok =>
      rw [pagesLoop_cons_ok env creds attempts td numResults start rest st st₁ htc] at h
      by_cases hle : numResults ≤ st₁.results.length
      · rw [if_pos hle] at h
        simp at h
      · rw [if_neg hle] at h
        obtain ⟨items, cs, c, happ, -, -, -⟩ :=
          tryCreds_ok_inv env creds td start _ _ st st₁ htc
        obtain ⟨hres, hitems⟩ :=
          appendItems_none_inv td st.results items st₁.results happ
        have hnm₁ : noMatch td st₁.results := by
          rw [hres]
          exact noMatch_append_withPos td st.results items hnm hitems
        have hsp₁ : seqPos st₁.results := by
          rw [hres]
          exact seqPos_append_withPos st.results items hsp
        exact ih st₁ st' pos link h hnm₁ hsp₁
    | noSuccess =>
      rw [pagesLoop_cons_noSuccess env creds attempts td numResults start rest st st₁ htc] at h
      simp at h

theorem pagesLoop_calls_range (env : String → String → Nat → Nat → ExecResult)
    (creds : List (String × String)) (attempts : Nat) (td : Option String)
    (numResults : Nat) :
    ∀ r s st, ∃ cs,
      (pagesLoop env creds attempts td numResults
          (List.range' s r 10) st).1.calls = st.calls ++ cs ∧
      (∀ x ∈ cs, s ≤ x.start) ∧
      (∀ s', (cs.filter (fun x => x.start == s')).length ≤ attempts) := by
  intro r
  induction r with
  | zero =>
    intro s st
    exact ⟨[], by simp [pagesLoop_nil], by simp, by simp⟩
  | succ r ih =>
    intro s st
    rw [List.range'_succ]
    rcases htc : tryCreds env creds td s
        (min 10 (numResults - st.results.length)) attempts st with ⟨st₁, out⟩
    obtain ⟨cs₁, hcalls₁, hlen₁, hprop₁⟩ :=
      tryCreds_calls env creds td s (min 10 (numResults - st.results.length)) attempts st
    rw [htc] at hcalls₁
    have hcs₁filter : ∀ s', (cs₁.filter (fun x => x.start == s')).length ≤ attempts :=
      fun s' => le_trans (List.length_filter_le _ _) hlen₁
    cases out with
    | found pos link =>
      rw [pagesLoop_cons_found env creds attempts td numResults s _ st st₁ pos link htc]
      exact ⟨cs₁, hcalls₁, fun x hx => le_of_eq (hprop₁ x hx).1.symm, hcs₁filter⟩
    | noSuccess =>
      rw [pagesLoop_cons_noSuccess env creds attempts td numResults s _ st st₁ htc]
      exact ⟨cs₁, hcalls₁, fun x hx => le_of_eq (hprop₁ x hx).1.symm, hcs₁filter⟩
    | ok =>
      rw [pagesLoop_cons_ok env creds attempts td numResults s _ st st₁ htc]
      by_cases hle : numResults ≤ st₁.results.length
      · rw [if_pos hle]
        exact ⟨cs₁, hcalls₁, fun x hx => le_of_eq (hprop₁ x hx).1.symm, hcs₁filter⟩
      · rw [if_neg hle]
        obtain ⟨cs₂, hcalls₂, hge₂, hfilter₂⟩ := ih (s + 10) st₁
        refine ⟨cs₁ ++ cs₂, ?_, ?_, ?_⟩
        · rw [hcalls₂, hcalls₁, List.append_assoc]
        · intro x hx
          rcases List.mem_append.mp hx with hx' | hx'
          · exact le_of_eq (hprop₁ x hx').1.symm
          · exact le_trans (by omega) (hge₂ x hx')
        · intro s'
          rw [List.filter_append, List.length_append]
          by_cases hs' : s' = s
          · subst hs'
            have h2 : cs₂.filter (fun x => x.start == s') = [] := by
              apply List.filter_eq_nil_iff.mpr
              intro a ha
              have := hge₂ a ha
              simp only [beq_iff_eq]
              omega
            rw [h2]
            simpa using hcs₁filter s'
          · have h1 : cs₁.filter (fun x => x.start == s') = [] := by
              apply List.filter_eq_nil_iff.mpr
              intro a ha
              have := (hprop₁ a ha).1
              simp only [beq_iff_eq]
              omega
            rw [h1]
            simpa using hfilter₂ s'

theorem pagesLoop_full (env : String → String → Nat → Nat → ExecResult)
    (creds : List (String × String)) (attempts : Nat) (td : Option String)
    (numResults : Nat) (itemsOf : String → String → Nat → Nat → List Item)
    (hatt : 0 < attempts)
    (hEnv : ∀ k c s m, env k c s m = .success (itemsOf k c s m))
    (hlen : ∀ k c s m, (itemsOf k c s m).length = m)
    (hfit : ∀ k c s m it, it ∈ itemsOf k c s m → domainHit td it.link = false) :
    ∀ rem j st, 0 < rem → rem + j = (numResults + 9) / 10 →
      st.results.length = 10 * j →
      ∃ st' cs,
        pagesLoop env creds attempts td numResults
            (List.range' (1 + 10 * j) rem 10) st = (st', none) ∧
        st'.results.length = numResults ∧
        st'.calls = st.calls ++ cs ∧
        cs.length = rem ∧
        cs.map (fun x => x.start) = List.range' (1 + 10 * j) rem 10 ∧
        (∀ i (h : i < cs.length),
          (cs.get ⟨i, h⟩).num = min 10 (numResults - 10 * (j + i))) := by
  intro rem
  induction rem with
  | zero => intro j st h0; omega
  | succ rem ih =>
    intro j st _ hsum hst
    obtain ⟨a, rfl⟩ : ∃ a, attempts = a + 1 := ⟨attempts - 1, by omega⟩
    have hjlt : 10 * j < numResults := by omega
    rw [List.range'_succ]
    have hr := hEnv (credAt creds st.cyclePos).1 (credAt creds st.cyclePos).2
      (1 + 10 * j) (min 10 (numResults - st.results.length))
    have happ := appendItems_nomatch td st.results
      (itemsOf (credAt creds st.cyclePos).1 (credAt creds st.cyclePos).2
        (1 + 10 * j) (min 10 (numResults - st.results.length)))
      (fun it hit => hfit _ _ _ _ it hit)
    set st₁ : SearchState :=
      ⟨st.results ++ withPos st.results.length
          (itemsOf (credAt creds st.cyclePos).1 (credAt creds st.cyclePos).2
            (1 + 10 * j) (min 10 (numResults - st.results.length))),
        st.cyclePos + 1,
        st.calls ++ [⟨(credAt creds st.cyclePos).1, (credAt creds st.cyclePos).2,
          1 + 10 * j, min 10 (numResults - st.results.length), .success
            (itemsOf (credAt creds st.cyclePos).1 (credAt creds st.cyclePos).2
              (1 + 10 * j) (min 10 (numResults - st.results.length)))⟩]⟩
      with hst₁def
    have htc : tryCreds env creds td (1 + 10 * j)
        (min 10 (numResults - st.results.length)) (a + 1) st = (st₁, .ok) :=
      tryCreds_succ_ok env creds td (1 + 10 * j)
        (min 10 (numResults - st.results.length)) a st _ _ hr happ
    have hlen₁ : st₁.results.length = 10 * j + min 10 (numResults - 10 * j) := by
      rw [hst₁def]
      dsimp only
      rw [List.length_append, withPos_length, hlen, hst]
    rw [pagesLoop_cons_ok env creds (a + 1) td numResults (1 + 10 * j) _ st st₁ htc]
    by_cases hrem : rem = 0
    · subst hrem
      have hR : numResults ≤ st₁.results.length := by rw [hlen₁]; omega
      rw [if_pos hR]
      refine ⟨st₁, [⟨(credAt creds st.cyclePos).1, (credAt creds st.cyclePos).2,
        1 + 10 * j, min 10 (numResults - st.results.length), .success
          (itemsOf (credAt creds st.cyclePos).1 (credAt creds st.cyclePos).2
            (1 + 10 * j) (min 10 (numResults - st.results.length)))⟩],
        rfl, by rw [hlen₁]; omega, by rw [hst₁def], by simp, ?_, ?_⟩
      · simp [List.range']
      · intro i h
        simp only [List.length_singleton] at h
        have hi0 : i = 0 := by omega
        subst hi0
        simp [hst]
    · have hrem' : 0 < rem := Nat.pos_of_ne_zero hrem
      have hnext : 10 * (j + 1) < numResults := by omega
      have hlen₂ : st₁.results.length = 10 * (j + 1) := by rw [hlen₁]; omega
      have hlt : ¬ (numResults ≤ st₁.results.length) := by rw [hlen₂]; omega
      rw [if_neg hlt]
      have hstep : 1 + 10 * j + 10 = 1 + 10 * (j + 1) := by omega
      rw [hstep]
      obtain ⟨st', cs₂, heq, hlenR, hcalls₂, hcslen, hmap, hnum⟩ :=
        ih (j + 1) st₁ hrem' (by omega) hlen₂
      refine ⟨st', ⟨(credAt creds st.cyclePos).1, (credAt creds st.cyclePos).2,
        1 + 10 * j, min 10 (numResults - st.results.length), .success
          (itemsOf (credAt creds st.cyclePos).1 (credAt creds st.cyclePos).2
            (1 + 10 * j) (min 10 (numResults - st.results.length)))⟩ :: cs₂,
        heq, hlenR, ?_, by simp [hcslen], ?_, ?_⟩
      · rw [hcalls₂, hst₁def]
        simp
      · rw [List.map_cons, hmap, ← hstep, ← List.range'_succ]
      · intro i h
        cases i with
        | zero => simp [hst]
        | succ i' =>
          have h' : i' < cs₂.length := by simpa using h
          have hn := hnum i' h'
          simp only [List.get_cons_succ]
          rw [hn]
          congr 1
          omega

/-! ### Claim theorems -/

/-- C1: Early-exit contract: whenever `google_search` reports a match,
the accumulated result list ends exactly at the matching item — its
length equals the reported position and its last entry carries the
reported link — the reported link's host contains the target domain,
every other accumulated entry does not match (so the reported match is
the first occurrence, at the lowest position), positions are
sequential, and the very last call of the whole trace is the
successful one: the search returned immediately from inside the item
loop, short-circuiting both the credential-retry loop and the page
loop. -/
theorem earlyExit_reports_first_occurrence
    (env : String → String → Nat → Nat → ExecResult)
    (api_keys cxs : List String) (numResults : Nat) (td : Option String)
    (st : SearchState) (pos : Nat) (link : String)
    (h : google_search env api_keys cxs numResults td = (st, some (pos, link))) :
    pos = st.results.length ∧
    (∃ r, st.results.getLast? = some r ∧ r.link = link ∧ r.position = pos) ∧
    domainHit td link = true ∧
    (∀ r ∈ st.results, domainHit td r.link = true →
      r.position = pos ∧ r.link = link) ∧
    seqPos st.results ∧
    (∃ c, st.calls.getLast? = some c ∧ c.result.isSuccess = true) :=
  pagesLoop_some_inv env (api_keys.zip cxs) api_keys.length td numResults
    (pageStarts numResults) ⟨[], 0, []⟩ st pos link h
    (by intro r hr; simp at hr) (by intro i hi; simp at hi)

/-- Witness for C1: the concrete scenario environment yields the match
at position 4 and the theorem's conclusions hold there. -/
theorem earlyExit_reports_first_occurrence_witness :
    4 = (google_search envScenario ["KEY1", "KEY2"] ["CX1", "CX2"] 20
          (some "imgur.com")).1.results.length ∧
    domainHit (some "imgur.com") "https://imgur.com/upload" = true :=
  have h2 : (google_search envScenario ["KEY1", "KEY2"] ["CX1", "CX2"] 20
      (some "imgur.com")).2 = some (4, "https://imgur.com/upload") := by decide
  have hmain := earlyExit_reports_first_occurrence envScenario
    ["KEY1", "KEY2"] ["CX1", "CX2"] 20 (some "imgur.com")
    (google_search envScenario ["KEY1", "KEY2"] ["CX1", "CX2"] 20
      (some "imgur.com")).1 4 "https://imgur.com/upload"
    (congrArg (fun x => ((google_search envScenario ["KEY1", "KEY2"] ["CX1", "CX2"] 20
      (some "imgur.com")).1, x)) h2)
  ⟨hmain.1, hmain.2.2.1⟩

/-- C2 counterexample: in the §8 end-to-end scenario instantiated with
a single successful response of 5 items (`imgur.com` at item index 3),
the search reports position 4 with exactly one successful API call,
but the output gains only 4 lines — not one line for each of the 5
items returned in that single successful response. -/
theorem scenario_log_lines_counterexample :
    (google_search envScenario ["KEY1", "KEY2"] ["CX1", "CX2"] 20
        (some "imgur.com")).2 = some (4, "https://imgur.com/upload") ∧
    ((google_search envScenario ["KEY1", "KEY2"] ["CX1", "CX2"] 20
        (some "imgur.com")).1.calls.filter
          (fun c => c.result.isSuccess)).length = 1 ∧
    (∃ c ∈ (google_search envScenario ["KEY1", "KEY2"] ["CX1", "CX2"] 20
        (some "imgur.com")).1.calls, c.result = .success scenarioItems) ∧
    scenarioItems.length = 5 ∧
    (outcomeLines "2026-10-12"
      (google_search envScenario ["KEY1", "KEY2"] ["CX1", "CX2"] 20
        (some "imgur.com")).1.results).length = 4 := by
  decide

/-- C2 (amended): in the §8 scenario the search returns position 4
with the matching link, terminates early after exactly two calls (one
429, then the single successful call), and the output file gains one
line — each beginning with today's date — for each of the items
accumulated up to and including the match: exactly 4 lines, even
though the successful response carried 5 items. -/
theorem scenario_position_four_and_log (d : String) :
    (google_search envScenario ["KEY1", "KEY2"] ["CX1", "CX2"] 20
        (some "imgur.com")).2 = some (4, "https://imgur.com/upload") ∧
    (google_search envScenario ["KEY1", "KEY2"] ["CX1", "CX2"] 20
        (some "imgur.com")).1.results.length = 4 ∧
    (google_search envScenario ["KEY1", "KEY2"] ["CX1", "CX2"] 20
        (some "imgur.com")).1.calls.length = 2 ∧
    ((google_search envScenario ["KEY1", "KEY2"] ["CX1", "CX2"] 20
        (some "imgur.com")).1.calls.filter
          (fun c => c.result.isSuccess)).length = 1 ∧
    (outcomeLines d (google_search envScenario ["KEY1", "KEY2"] ["CX1", "CX2"] 20
        (some "imgur.com")).1.results).length = 4 ∧
    (∀ l ∈ outcomeLines d (google_search envScenario ["KEY1", "KEY2"] ["CX1", "CX2"]
        20 (some "imgur.com")).1.results, ∃ t, l = d ++ t) := by
  refine ⟨by decide, by decide, by decide, by decide, ?_, ?_⟩
  · rw [outcomeLines, List.length_map]
    decide
  · intro l hl
    simp only [outcomeLines, List.mem_map] at hl
    obtain ⟨r, -, rfl⟩ := hl
    exact ⟨"|" ++ r.link ++ "|" ++ toString r.position,
      by simp [lineOf, String.append_assoc]⟩

/-- Witness for the amended C2 at today's date. -/
theorem scenario_position_four_and_log_witness :
    (google_search envScenario ["KEY1", "KEY2"] ["CX1", "CX2"] 20
        (some "imgur.com")).2 = some (4, "https://imgur.com/upload") :=
  (scenario_position_four_and_log "2026-10-12").1

/-- C3: if the API-key list and the cx list have different lengths,
the driver prints the configuration error and exits with code 1
before making any network call; with equal lengths (and a working
output file) the process exits 0, whatever the environment answers
and whether or not the domain is matched. -/
theorem config_mismatch_exits_one
    (env : String → String → Nat → Nat → ExecResult)
    (keys cxs : List String) (numResults : Nat) (date domain : String) :
    (keys.length ≠ cxs.length →
      (mainRun env keys cxs numResults date domain true).exitCode = 1 ∧
      (mainRun env keys cxs numResults date domain true).configErrorPrinted = true ∧
      (mainRun env keys cxs numResults date domain true).calls = []) ∧
    (keys.length = cxs.length →
      (mainRun env keys cxs numResults date domain true).exitCode = 0) := by
  constructor
  · intro hne
    simp [mainRun, hne]
  · intro heq
    simp [mainRun, heq]

/-- Witness for C3: a mismatched pool exits 1 with no calls; the
matched pool of the scenario exits 0. -/
theorem config_mismatch_exits_one_witness :
    (mainRun envScenario ["KEY1"] [] 20 "2026-10-12" "imgur.com" true).exitCode = 1 ∧
    (mainRun envScenario ["KEY1"] [] 20 "2026-10-12" "imgur.com" true).calls = [] ∧
    (mainRun envScenario ["KEY1", "KEY2"] ["CX1", "CX2"] 20 "2026-10-12"
      "imgur.com" true).exitCode = 0 :=
  have h1 := config_mismatch_exits_one envScenario ["KEY1"] [] 20 "2026-10-12" "imgur.com"
  have h2 := config_mismatch_exits_one envScenario ["KEY1", "KEY2"] ["CX1", "CX2"]
    20 "2026-10-12" "imgur.com"
  ⟨(h1.1 (by decide)).1, (h1.1 (by decide)).2.2, h2.2 (by decide)⟩

/-- C4: for every page offset, at most `len(api_keys)` calls are ever
made at that offset; for EVERY page of the search — any offset `s`,
any remaining pages, any accumulated state — if every credential's
call at that page fails (quota, error or empty: no Success), the page
loop returns at once with the outcome accumulated so far, unmatched,
making exactly the page's `attempts` failed calls at offset `s` and
none at any later offset (the page is never retried on a later outer
pass); in particular, when every credential fails on page 1 the whole
search returns the empty result list, unmatched, whatever the
requested result count. -/
theorem per_page_attempts_bounded
    (env : String → String → Nat → Nat → ExecResult)
    (api_keys cxs : List String) (numResults : Nat) (td : Option String)
    (s : Nat) :
    (((google_search env api_keys cxs numResults td).1.calls.filter
        (fun c => c.start == s)).length ≤ api_keys.length) ∧
    (∀ creds attempts rest st,
      (∀ k c, (env k c s
          (min 10 (numResults - st.results.length))).isSuccess = false) →
      ∃ st' cs,
        pagesLoop env creds attempts td numResults (s :: rest) st
          = (st', none) ∧
        st'.results = st.results ∧
        st'.calls = st.calls ++ cs ∧
        cs.length = attempts ∧
        ∀ x ∈ cs, x.result.isSuccess = false ∧ x.start = s) ∧
    ((∀ k c m, (env k c 1 m).isSuccess = false) →
      (google_search env api_keys cxs numResults td).1.results = [] ∧
      (google_search env api_keys cxs numResults td).2 = none) := by
  refine ⟨?_, ?_, ?_⟩
  · obtain ⟨cs, hcalls, -, hfilter⟩ :=
      pagesLoop_calls_range env (api_keys.zip cxs) api_keys.length td numResults
        ((numResults + 9) / 10) 1 ⟨[], 0, []⟩
    unfold google_search pageStarts
    rw [hcalls]
    simpa using hfilter s
  · intro creds attempts rest st hfail
    rcases htc : tryCreds env creds td s
        (min 10 (numResults - st.results.length)) attempts st with ⟨st₁, out⟩
    have hout : out = .noSuccess := by
      have := tryCreds_allfail env creds td s
        (min 10 (numResults - st.results.length)) hfail attempts st
      rw [htc] at this
      exact this
    subst hout
    obtain ⟨hres, cs, hcalls, hlen, hprop⟩ :=
      tryCreds_noSuccess_inv env creds td s _ attempts st st₁ htc
    exact ⟨st₁, cs,
      pagesLoop_cons_noSuccess env creds attempts td numResults s rest st st₁ htc,
      hres, hcalls, hlen, hprop⟩
  · intro hfail
    unfold google_search pageStarts
    cases hK : (numResults + 9) / 10 with
    | zero =>
      exact ⟨rfl, rfl⟩
    | succ K =>
      rw [List.range'_succ]
      rcases htc : tryCreds env (api_keys.zip cxs) td 1
          (min 10 (numResults - (⟨[], 0, []⟩ : SearchState).results.length))
          api_keys.length ⟨[], 0, []⟩ with ⟨st₁, out⟩
      have hout : out = .noSuccess := by
        have := tryCreds_allfail env (api_keys.zip cxs) td 1
          (min 10 (numResults - (⟨[], 0, []⟩ : SearchState).results.length))
          (fun k c => hfail k c _) api_keys.length ⟨[], 0, []⟩
        rw [htc] at this
        exact this
      subst hout
      rw [pagesLoop_cons_noSuccess env (api_keys.zip cxs) api_keys.length td
        numResults 1 _ ⟨[], 0, []⟩ st₁ htc]
      have hres := (tryCreds_noSuccess_inv env (api_keys.zip cxs) td 1 _
        api_keys.length ⟨[], 0, []⟩ st₁ htc).1
      exact ⟨hres, rfl⟩

/-- Witness for C4: with the all-quota environment the search over two
credentials returns nothing; the per-page bound holds at offset 1; and
from a mid-search state with one accumulated item, an all-fail page at
offset 11 ends the loop with that item preserved, unmatched. -/
theorem per_page_attempts_bounded_witness :
    (((google_search envAllQuota ["K1", "K2"] ["C1", "C2"] 30
        (some "imgur.com")).1.calls.filter (fun c => c.start == 1)).length ≤ 2) ∧
    (pagesLoop envAllQuota [("K1", "C1")] 1 (some "imgur.com") 30 [11, 21]
        ⟨[⟨"T", "https://x.org/", "s", 1⟩], 1, []⟩).2 = none ∧
    (pagesLoop envAllQuota [("K1", "C1")] 1 (some "imgur.com") 30 [11, 21]
        ⟨[⟨"T", "https://x.org/", "s", 1⟩], 1, []⟩).1.results
      = [⟨"T", "https://x.org/", "s", 1⟩] ∧
    (google_search envAllQuota ["K1", "K2"] ["C1", "C2"] 30
        (some "imgur.com")).1.results = [] ∧
    (google_search envAllQuota ["K1", "K2"] ["C1", "C2"] 30
        (some "imgur.com")).2 = none :=
  by
  have h1 := per_page_attempts_bounded envAllQuota ["K1", "K2"] ["C1", "C2"] 30
    (some "imgur.com") 1
  have h11 := per_page_attempts_bounded envAllQuota ["K1", "K2"] ["C1", "C2"] 30
    (some "imgur.com") 11
  obtain ⟨st', cs, heq, hres, -, -, -⟩ := h11.2.1 [("K1", "C1")] 1 [21]
    ⟨[⟨"T", "https://x.org/", "s", 1⟩], 1, []⟩ (fun _ _ => rfl)
  exact ⟨h1.1, by rw [heq], by rw [heq]; exact hres,
    (h1.2.2 (fun _ _ _ => rfl)).1, (h1.2.2 (fun _ _ _ => rfl)).2⟩

/-- C5: domain matching is the pure host-substring test: for a
nonempty target domain, an item link matches exactly when the
lower-cased domain is a substring of the lower-cased parsed host (not
of the full URL).  In particular `imgur.com` matches host
`www.imgur.com`, and it equally matches `imgur.com.evil.net` — the
rule has no partial-label safety. -/
theorem domain_match_is_host_substring (td link : String) (h : td ≠ "") :
    (domainHit (some td) link = true ↔
      lowerL td.data <:+: lowerL (netloc link).data) ∧
    domainHit (some "imgur.com") "https://www.imgur.com/gallery" = true ∧
    netloc "https://www.imgur.com/gallery" = "www.imgur.com" ∧
    domainHit (some "imgur.com") "https://imgur.com.evil.net/phish" = true ∧
    netloc "https://imgur.com.evil.net/phish" = "imgur.com.evil.net" ∧
    domainHit (some "imgur.com") "https://postimages.org/page" = false := by
  refine ⟨?_, by decide, by decide, by decide, by decide, by decide⟩
  have hne : td.isEmpty = false := by
    cases hb : td.isEmpty
    · rfl
    · exact absurd ((String.isEmpty_iff td).mp hb) h
  simp [domainHit, hne]

/-- Witness for C5 at the concrete `www.imgur.com` example. -/
theorem domain_match_is_host_substring_witness :
    domainHit (some "imgur.com") "https://www.imgur.com/gallery" = true :=
  (domain_match_is_host_substring "imgur.com" "https://www.imgur.com/gallery"
    (by decide)).2.1

/-- C6: pagination and budget termination: when every call succeeds
with exactly the requested number of non-matching items (each page
succeeds on its first credential with a full page), the search ends
unmatched with exactly `numResults` accumulated items after exactly
`⌈numResults/10⌉` calls, the pages are requested at the 1-based
offsets 1, 11, 21, …, and the `i`-th call asks for
`min 10 (numResults - 10*i)` items — the budget minus what is already
accumulated. -/
theorem pagination_budget_termination
    (env : String → String → Nat → Nat → ExecResult)
    (api_keys cxs : List String) (numResults : Nat) (td : Option String)
    (itemsOf : String → String → Nat → Nat → List Item)
    (hkeys : 0 < api_keys.length)
    (hEnv : ∀ k c s m, env k c s m = .success (itemsOf k c s m))
    (hlen : ∀ k c s m, (itemsOf k c s m).length = m)
    (hfit : ∀ k c s m it, it ∈ itemsOf k c s m → domainHit td it.link = false) :
    (google_search env api_keys cxs numResults td).2 = none ∧
    (google_search env api_keys cxs numResults td).1.results.length = numResults ∧
    (google_search env api_keys cxs numResults td).1.calls.length
      = (numResults + 9) / 10 ∧
    (google_search env api_keys cxs numResults td).1.calls.map (fun c => c.start)
      = List.range' 1 ((numResults + 9) / 10) 10 ∧
    (∀ i (h : i < (google_search env api_keys cxs numResults td).1.calls.length),
      ((google_search env api_keys cxs numResults td).1.calls.get ⟨i, h⟩).num
        = min 10 (numResults - 10 * i)) := by
  by_cases hR : (numResults + 9) / 10 = 0
  · have hR0 : numResults = 0 := by omega
    subst hR0
    refine ⟨rfl, rfl, rfl, rfl, ?_⟩
    intro i hi
    simp [google_search, pageStarts, pagesLoop] at hi
  · obtain ⟨st', cs, heq, hlenR, hcalls, hcslen, hmap, hnum⟩ :=
      pagesLoop_full env (api_keys.zip cxs) api_keys.length td numResults itemsOf
        hkeys hEnv hlen hfit ((numResults + 9) / 10) 0 ⟨[], 0, []⟩
        (by omega) (by omega) rfl
    have hgs : google_search env api_keys cxs numResults td = (st', none) := heq
    have hcalls' : st'.calls = cs := by simpa using hcalls
    subst hcalls'
    rw [hgs]
    refine ⟨rfl, hlenR, hcslen, ?_, ?_⟩
    · rw [hmap]
    · intro i hi
      exact (hnum i hi).trans (by simp)

/-- Witness for C6: one credential, every page full with non-matching
items, budget 25: three pages, 25 items, no match. -/
theorem pagination_budget_termination_witness :
    (google_search envFullPages ["K1"] ["C1"] 25 (some "imgur.com")).2 = none ∧
    (google_search envFullPages ["K1"] ["C1"] 25
      (some "imgur.com")).1.results.length = 25 ∧
    (google_search envFullPages ["K1"] ["C1"] 25
      (some "imgur.com")).1.calls.length = 3 :=
  have h := pagination_budget_termination envFullPages ["K1"] ["C1"] 25
    (some "imgur.com") plainItems (by decide)
    (fun _ _ _ _ => rfl)
    (fun _ _ _ m => by simp [plainItems])
    (fun _ _ _ m it hit => by
      have hm := List.eq_of_mem_replicate (by simpa [plainItems] using hit)
      rw [hm]
      decide)
  ⟨h.1, h.2.1, (h.2.2.1).trans (by decide)⟩

/-- C7: position invariant: the result list returned by the search has
the `i`-th entry (1-based) carrying position exactly `i`, positions
being assigned sequentially and globally across pages; the invariant
is preserved by every credential-loop run, and a credential-loop run
with no successful attempt appends nothing to the result list. -/
theorem positions_sequential_invariant
    (env : String → String → Nat → Nat → ExecResult)
    (api_keys cxs : List String) (numResults : Nat) (td : Option String) :
    seqPos (google_search env api_keys cxs numResults td).1.results ∧
    (∀ creds td' s m fuel st, seqPos st.results →
      seqPos (tryCreds env creds td' s m fuel st).1.results) ∧
    (∀ creds td' s m fuel st st',
      tryCreds env creds td' s m fuel st = (st', .noSuccess) →
      st'.results = st.results) := by
  refine ⟨?_, ?_, ?_⟩
  · exact pagesLoop_seqPos env (api_keys.zip cxs) api_keys.length td numResults
      (pageStarts numResults) ⟨[], 0, []⟩ (by intro i hi; simp at hi)
  · intro creds td' s m fuel st hsp
    rcases htc : tryCreds env creds td' s m fuel st with ⟨st₁, out⟩
    show seqPos st₁.results
    cases out with
    | found pos link =>
      obtain ⟨items, cs, c, happ, -, -, -, -, -⟩ :=
        tryCreds_found_inv env creds td' s m fuel st st₁ pos link htc
      obtain ⟨pre, mm, post, -, -, -, -, hres, -⟩ :=
        appendItems_some_inv td' st.results items st₁.results pos link happ
      rw [hres]
      exact seqPos_append_withPos st.results (pre ++ [mm]) hsp
    | ok =>
      obtain ⟨items, cs, c, happ, -, -, -⟩ :=
        tryCreds_ok_inv env creds td' s m fuel st st₁ htc
      obtain ⟨hres, -⟩ :=
        appendItems_none_inv td' st.results items st₁.results happ
      rw [hres]
      exact seqPos_append_withPos st.results items hsp
    | noSuccess =>
      rw [(tryCreds_noSuccess_inv env creds td' s m fuel st st₁ htc).1]
      exact hsp
  · intro creds td' s m fuel st st' h
    exact (tryCreds_noSuccess_inv env creds td' s m fuel st st' h).1

/-- Witness for C7: the invariant holds on the concrete scenario run
and on a one-attempt credential loop from the empty state. -/
theorem positions_sequential_invariant_witness :
    seqPos (google_search envScenario ["KEY1", "KEY2"] ["CX1", "CX2"] 20
      (some "imgur.com")).1.results ∧
    seqPos (tryCreds envScenario [("KEY2", "CX2")] (some "imgur.com") 1 10 1
      ⟨[], 0, []⟩).1.results :=
  have h := positions_sequential_invariant envScenario ["KEY1", "KEY2"]
    ["CX1", "CX2"] 20 (some "imgur.com")
  ⟨h.1, h.2.1 [("KEY2", "CX2")] (some "imgur.com") 1 10 1 ⟨[], 0, []⟩
    (by intro i hi; simp at hi)⟩

/-- C8 counterexample: the driver has no handler around the output
file: on the same run, a failing output file makes the process exit 1
where a working file exits 0 — the sink failure does alter the exit
code, contradicting the claim; the verdict is nevertheless printed
(it precedes the write) and the failure surfaces as an uncaught I/O
error. -/
theorem sink_failure_changes_exit_code :
    (mainRun envScenario ["KEY1", "KEY2"] ["CX1", "CX2"] 20 "2026-10-12"
      "imgur.com" false).exitCode = 1 ∧
    (mainRun envScenario ["KEY1", "KEY2"] ["CX1", "CX2"] 20 "2026-10-12"
      "imgur.com" true).exitCode = 0 ∧
    (mainRun envScenario ["KEY1", "KEY2"] ["CX1", "CX2"] 20 "2026-10-12"
      "imgur.com" false).verdictPrinted = true ∧
    (mainRun envScenario ["KEY1", "KEY2"] ["CX1", "CX2"] 20 "2026-10-12"
      "imgur.com" false).ioErrorRaised = true := by
  decide

/-- C8 (amended): on any well-configured run whose output file fails
to open, the I/O error is reported (as an uncaught traceback), the
search verdict has already been printed to the console, the computed
match is the same as with a working file and nothing is written — but
the process exits 1 instead of 0: the sink failure does change the
exit code. -/
theorem sink_failure_reported_but_exit_changed
    (env : String → String → Nat → Nat → ExecResult)
    (keys cxs : List String) (numResults : Nat) (date domain : String)
    (h : keys.length = cxs.length) :
    (mainRun env keys cxs numResults date domain false).verdictPrinted = true ∧
    (mainRun env keys cxs numResults date domain false).ioErrorRaised = true ∧
    (mainRun env keys cxs numResults date domain false).matched
      = (mainRun env keys cxs numResults date domain true).matched ∧
    (mainRun env keys cxs numResults date domain false).fileLines = [] ∧
    (mainRun env keys cxs numResults date domain false).exitCode = 1 := by
  simp [mainRun, h]

/-- Witness for the amended C8 at the concrete scenario. -/
theorem sink_failure_reported_but_exit_changed_witness :
    (mainRun envScenario ["KEY1", "KEY2"] ["CX1", "CX2"] 20 "2026-10-12"
      "imgur.com" false).verdictPrinted = true :=
  (sink_failure_reported_but_exit_changed envScenario ["KEY1", "KEY2"]
    ["CX1", "CX2"] 20 "2026-10-12" "imgur.com" (by decide)).1

/-- C9: the result sink is pure append and idempotent in the append
sense: writing the same outcome twice appends two blocks of lines
(identical when the date is the same, and differing only in the date
prefix otherwise), the prior content is always a prefix of the new
content (never truncated, reordered or deduplicated), and the file
name is derived deterministically from the keyword (spaces become
underscores) and country. -/
theorem sink_pure_append (prior : List String) (d1 d2 : String)
    (rs : List RItem) :
    sinkAppend (sinkAppend prior d1 rs) d2 rs
      = prior ++ outcomeLines d1 rs ++ outcomeLines d2 rs ∧
    prior <+: sinkAppend prior d1 rs ∧
    (d1 = d2 → outcomeLines d1 rs = outcomeLines d2 rs) ∧
    (outcomeLines d1 rs).length = (outcomeLines d2 rs).length ∧
    (∀ r ∈ rs, ∃ t, lineOf d1 r = d1 ++ t ∧ lineOf d2 r = d2 ++ t) ∧
    outputFile "free image hosting" "us"
      = "seo_results_free_image_hosting_us.txt" := by
  refine ⟨rfl, List.prefix_append prior _, fun hd => by rw [hd],
    by simp [outcomeLines], ?_, by decide⟩
  intro r hr
  exact ⟨"|" ++ r.link ++ "|" ++ toString r.position,
    by simp [lineOf, String.append_assoc], by simp [lineOf, String.append_assoc]⟩

/-- Witness for C9 at a concrete prior log, two dates and one item. -/
theorem sink_pure_append_witness :
    sinkAppend (sinkAppend ["old|x|1"] "2026-10-12"
        [⟨"T", "https://x.org/", "s", 1⟩]) "2026-10-13"
        [⟨"T", "https://x.org/", "s", 1⟩]
      = ["old|x|1"] ++ outcomeLines "2026-10-12" [⟨"T", "https://x.org/", "s", 1⟩]
          ++ outcomeLines "2026-10-13" [⟨"T", "https://x.org/", "s", 1⟩] ∧
    ["old|x|1"] <+: sinkAppend ["old|x|1"] "2026-10-12"
        [⟨"T", "https://x.org/", "s", 1⟩] :=
  have h := sink_pure_append ["old|x|1"] "2026-10-12" "2026-10-13"
    [⟨"T", "https://x.org/", "s", 1⟩]
  ⟨h.1, h.2.1⟩

/-- C10: once an item matches, the item loop stops: the result of
processing a response `pre ++ m :: post` (with no match in `pre` and a
match at `m`) is the same as processing `pre ++ [m]` — the items in
`post` are never appended and never logged — and the produced list
ends exactly at the matching item, its length equalling the reported
position and its last entry carrying the reported link. -/
theorem match_truncates_response (td : Option String) (res : List RItem)
    (pre : List Item) (m : Item) (post : List Item) (d : String)
    (hpre : ∀ it ∈ pre, domainHit td it.link = false)
    (hm : domainHit td m.link = true) :
    appendItems td res (pre ++ m :: post) = appendItems td res (pre ++ [m]) ∧
    (appendItems td res (pre ++ m :: post)).1.length
      = res.length + pre.length + 1 ∧
    (appendItems td res (pre ++ m :: post)).2
      = some (res.length + pre.length + 1, m.link) ∧
    (∃ r, (appendItems td res (pre ++ m :: post)).1.getLast? = some r ∧
      r.link = m.link ∧ r.position = res.length + pre.length + 1) ∧
    outcomeLines d (appendItems td res (pre ++ m :: post)).1
      = outcomeLines d (appendItems td res (pre ++ [m])).1 := by
  have h1 := appendItems_match td res pre m post hpre hm
  have h2 := appendItems_match td res pre m [] hpre hm
  refine ⟨by rw [h1, h2], ?_, by rw [h1], ?_, by rw [h1, h2]⟩
  · rw [h1]
    simp [withPos_length]
    omega
  · rw [h1]
    refine ⟨⟨m.title, m.link, m.snippet, res.length + pre.length + 1⟩, ?_, rfl, rfl⟩
    show (res ++ withPos res.length (pre ++ [m])).getLast? = _
    rw [withPos_concat, ← List.append_assoc]
    exact List.getLast?_concat _

/-- Witness for C10 at a concrete three-item response with the match
in the middle. -/
theorem match_truncates_response_witness :
    appendItems (some "imgur.com") []
        ([⟨"A", "https://a.org/", "s"⟩] ++ ⟨"Imgur", "https://imgur.com/u", "s"⟩ ::
          [⟨"B", "https://b.org/", "s"⟩])
      = appendItems (some "imgur.com") []
          ([⟨"A", "https://a.org/", "s"⟩] ++ [⟨"Imgur", "https://imgur.com/u", "s"⟩]) :=
  (match_truncates_response (some "imgur.com") [] [⟨"A", "https://a.org/", "s"⟩]
    ⟨"Imgur", "https://imgur.com/u", "s"⟩ [⟨"B", "https://b.org/", "s"⟩]
    "2026-10-12" (by decide) (by decide)).1
